import Mathlib

/-!
# Verification of the gobertura coverage converter core

Shallow embedding of `cobertura/cobertura.go` from the gobertura repository:
the line ledger (`Lines.AddOrUpdateLine`, the hit/line counters and hit
rates), the block attributor (`fileVisitor.method`), the class/package
lookup (`fileVisitor.class`, `Coverage.parseProfile`) and the top-level
conversion (`Coverage.ParseProfiles`).

Go machine integers (`int`, `int64`) are modelled as `Int` (no overflow is
exercised by the counting code). Go `float32` arithmetic is modelled by
`GoFloat`: exact rational values plus the IEEE special values produced by
dividing by zero (`0/0 = NaN`, `x/0 = ±Inf` for `x ≠ 0`); the code only
ever divides a count by a count, so the rational idealisation is faithful
for the properties stated here (NaN-ness of `0/0` and membership of the
quotient in `[0,1]` hold in real `float32` as well).

Collaborators (the Go parser, `ioutil.ReadFile`) are modelled as oracles
attached to each profile: a profile input carries the declaration list the
parser would produce for its file (or the parse error), and the result of
reading the file.
-/

namespace Gobertura

/-- IEEE-style result of the `float32` divisions performed by the code:
an exact rational, or the special values produced by a zero denominator. -/
inductive GoFloat where
  | nan : GoFloat
  | inf : Bool → GoFloat
  | val : ℚ → GoFloat
deriving DecidableEq

/-- `float32(num) / float32(den)` for the integer counters the code divides:
`0/0` is NaN, `x/0` is a signed infinity, otherwise the exact quotient. -/
def floatDiv (num den : Int) : GoFloat :=
  if den = 0 then
    if num = 0 then GoFloat.nan else GoFloat.inf (decide (0 < num))
  else GoFloat.val ((num : ℚ) / (den : ℚ))

/-- `true` iff a `GoFloat` is an ordinary value lying in `[0, 1]`. -/
def isUnitRateB : GoFloat → Bool
  | GoFloat.val q => decide (0 ≤ q) && decide (q ≤ 1)
  | _ => false

/-- One ledger entry: `type Line struct { Number int; Hits int64 }`. -/
structure Line where
  number : Int
  hits : Int
deriving DecidableEq

/-- `Lines.AddOrUpdateLine`: if the ledger is non-empty and its last entry
has the same line number, lower that entry's hits to `hits` when smaller
(otherwise leave it as-is); otherwise append a new entry. The Go code
reaches the last slice element by index; here we recurse to it. -/
def addOrUpdateLine : List Line → Int → Int → List Line
  | [], n, h => [⟨n, h⟩]
  | [a], n, h =>
      if n = a.number then
        if h < a.hits then [⟨n, h⟩] else [a]
      else [a, ⟨n, h⟩]
  | a :: b :: rest, n, h => a :: addOrUpdateLine (b :: rest) n h

/-- `Lines.NumLines`: `int64(len(lines))`. -/
def linesNumLines (ls : List Line) : Int := (ls.length : Int)

/-- `Lines.NumLinesWithHits`: the number of entries with `Hits > 0`. -/
def linesNumHits (ls : List Line) : Int :=
  ((ls.filter (fun l => decide (0 < l.hits))).length : Int)

/-- `Lines.HitRate`: `float32(NumLinesWithHits()) / float32(len(lines))`. -/
def linesHitRate (ls : List Line) : GoFloat :=
  floatDiv (linesNumHits ls) (linesNumLines ls)

/-- One profile block: `cover.ProfileBlock` (`StartLine, StartCol, EndLine,
EndCol, Count`). -/
structure ProfileBlock where
  startLine : Int
  startCol : Int
  endLine : Int
  endCol : Int
  count : Int
deriving DecidableEq

/-- One `*ast.FuncDecl` as the visitor sees it: its name, the raw source
text of its receiver type when present (`nil` receiver ↦ `none`), and the
line/column span `fset.Position(n.Pos()) .. fset.Position(n.End())`. -/
structure FuncDeclInfo where
  name : String
  recv : Option String
  startLine : Int
  startCol : Int
  endLine : Int
  endCol : Int
deriving DecidableEq

/-- The line numbers visited by `for i := b.StartLine; i <= b.EndLine; i++`. -/
def blockLineNumbers (b : ProfileBlock) : List Int :=
  (List.range (b.endLine - b.startLine + 1).toNat).map (fun i => b.startLine + Int.ofNat i)

/-- The inner loop of `fileVisitor.method`: fold one overlapping block's
lines into the ledger via `AddOrUpdateLine` with the block's count. -/
def attributeBlock (acc : List Line) (b : ProfileBlock) : List Line :=
  (blockLineNumbers b).foldl (fun ls i => addOrUpdateLine ls i b.count) acc

/-- The block scan of `fileVisitor.method`: stop at the first block past
the declaration's end, skip blocks ending at or before its start,
attribute the rest. -/
def methodLinesAux (d : FuncDeclInfo) : List ProfileBlock → List Line → List Line
  | [], acc => acc
  | b :: bs, acc =>
      if b.startLine > d.endLine ∨ (b.startLine = d.endLine ∧ b.startCol ≥ d.endCol) then
        acc
      else if b.endLine < d.startLine ∨ (b.endLine = d.startLine ∧ b.endCol ≤ d.startCol) then
        methodLinesAux d bs acc
      else
        methodLinesAux d bs (attributeBlock acc b)

/-- The ledger `fileVisitor.method` builds for declaration `d` from the
profile's sorted block list. -/
def methodLines (d : FuncDeclInfo) (bs : List ProfileBlock) : List Line :=
  methodLinesAux d bs []

-- sanity: a single block covering lines 2..4 with count 5
example :
    methodLines ⟨"f", none, 1, 1, 9, 2⟩ [⟨2, 1, 4, 10, 5⟩] =
      [⟨2, 5⟩, ⟨3, 5⟩, ⟨4, 5⟩] := by decide

/-- `type Method struct` (the fields the core reads and writes). -/
structure Method where
  name : String
  lineRate : GoFloat
  lines : List Line
deriving DecidableEq

/-- `Method.NumLines`. -/
def methodNumLines (m : Method) : Int := linesNumLines m.lines

/-- `Method.NumLinesWithHits`. -/
def methodNumHits (m : Method) : Int := linesNumHits m.lines

/-- `Method.HitRate`. -/
def methodHitRate (m : Method) : GoFloat := linesHitRate m.lines

/-- `type Class struct` (the fields the core reads and writes). -/
structure Class where
  name : String
  filename : String
  lineRate : GoFloat
  methods : List Method
  lines : List Line
deriving DecidableEq

/-- `Class.NumLines`: sum over the class's methods. -/
def classNumLines (c : Class) : Int := (c.methods.map methodNumLines).sum

/-- `Class.NumLinesWithHits`: sum over the class's methods. -/
def classNumHits (c : Class) : Int := (c.methods.map methodNumHits).sum

/-- `Class.HitRate`: `float32(NumLinesWithHits()) / float32(NumLines())`. -/
def classHitRate (c : Class) : GoFloat := floatDiv (classNumHits c) (classNumLines c)

/-- `type Package struct` (the fields the core reads and writes). -/
structure Package where
  name : String
  lineRate : GoFloat
  classes : List Class
deriving DecidableEq

/-- `Package.NumLines`. -/
def packageNumLines (p : Package) : Int := (p.classes.map classNumLines).sum

/-- `Package.NumLinesWithHits`. -/
def packageNumHits (p : Package) : Int := (p.classes.map classNumHits).sum

/-- `Package.HitRate`. -/
def packageHitRate (p : Package) : GoFloat :=
  floatDiv (packageNumHits p) (packageNumLines p)

/-- `type Coverage struct` (the fields the core reads and writes; the
XML-only attributes are serialization concerns and carry no logic). -/
structure Coverage where
  packagePath : String
  lineRate : GoFloat
  linesCovered : Int
  linesValid : Int
  packages : List Package
deriving DecidableEq

/-- `Coverage.NumLines`. -/
def covNumLines (cov : Coverage) : Int := (cov.packages.map packageNumLines).sum

/-- `Coverage.NumLinesWithHits`. -/
def covNumHits (cov : Coverage) : Int := (cov.packages.map packageNumHits).sum

/-- `Coverage.HitRate`. -/
def covHitRate (cov : Coverage) : GoFloat :=
  floatDiv (covNumHits cov) (covNumLines cov)

/-- `strings.TrimLeft(s, "*")`: drop every leading `*`. -/
def goTrimLeftStar (s : String) : String :=
  String.mk (s.toList.dropWhile (fun c => c = '*'))

/-- `strings.TrimSpace`: drop leading and trailing whitespace. -/
def goTrimSpace (s : String) : String :=
  String.mk (((s.toList.dropWhile Char.isWhitespace).reverse.dropWhile Char.isWhitespace).reverse)

/-- Whether the first character list is an initial segment of the second. -/
def isPreOfChars : List Char → List Char → Bool
  | [], _ => true
  | _ :: _, [] => false
  | a :: as, b :: bs => a == b && isPreOfChars as bs

/-- `strings.TrimPrefix(s, pre)`: drop `pre` from the front when present. -/
def goTrimPre (s pre : String) : String :=
  if isPreOfChars pre.toList s.toList then String.mk (s.toList.drop pre.toList.length) else s

/-- `filepath.Split(fileName)` followed by
`strings.TrimRight(dir, separator)`: the directory part of a path without
its trailing separators. -/
def goDirPath (fileName : String) : String :=
  String.mk ((((fileName.toList.reverse).dropWhile (fun c => c ≠ '/')).dropWhile (fun c => c = '/')).reverse)

/-- `fileVisitor.recvName`: `"-"` for a nil receiver, otherwise the raw
receiver type text with leading `*` and surrounding whitespace stripped. -/
def recvName (d : FuncDeclInfo) : String :=
  match d.recv with
  | none => "-"
  | some raw => goTrimSpace (goTrimLeftStar raw)

/-- `fileVisitor.method` plus the `method.LineRate` write done in
`fileVisitor.Visit`. -/
def mkMethod (d : FuncDeclInfo) (bs : List ProfileBlock) : Method :=
  let ls := methodLines d bs
  { name := d.name, lineRate := linesHitRate ls, lines := ls }

/-- The per-file visitor state: the owning package's class slice
(`pkg.Classes`, prior files' classes included) and the per-file
`classes` map, represented as an association list from class name to the
index of that class in the slice. -/
structure VState where
  classes : List Class
  fileMap : List (String × Nat)
deriving DecidableEq

/-- Lookup in the per-file `classes` map. -/
def lookupIdx (fm : List (String × Nat)) (nm : String) : Option Nat :=
  (fm.find? (fun kv => kv.1 == nm)).map Prod.snd

/-- One `fileVisitor.Visit` step on a `*ast.FuncDecl`: look up or create
the receiver's class (`fileVisitor.class`), build the method, append it
and its lines to the class, and recompute the class's line rate. -/
def visitDecl (fileName : String) (blocks : List ProfileBlock) (st : VState)
    (d : FuncDeclInfo) : VState :=
  let cname := recvName d
  let m := mkMethod d blocks
  match lookupIdx st.fileMap cname with
  | some i =>
      match st.classes.get? i with
      | none => st
      | some c =>
          let c1 : Class :=
            { c with methods := c.methods ++ [m], lines := c.lines ++ m.lines }
          { classes := st.classes.set i { c1 with lineRate := linesHitRate c1.lines },
            fileMap := st.fileMap }
  | none =>
      let c : Class :=
        { name := cname, filename := fileName, lineRate := GoFloat.val 0,
          methods := [], lines := [] }
      let c1 : Class :=
        { c with methods := c.methods ++ [m], lines := c.lines ++ m.lines }
      { classes := st.classes ++ [{ c1 with lineRate := linesHitRate c1.lines }],
        fileMap := st.fileMap ++ [(cname, st.classes.length)] }

instance {ε α : Type} [DecidableEq ε] [DecidableEq α] : DecidableEq (Except ε α) := fun x y =>
  match x, y with
  | Except.ok a, Except.ok b =>
      if h : a = b then isTrue (by rw [h]) else isFalse (fun he => by cases he; exact h rfl)
  | Except.error a, Except.error b =>
      if h : a = b then isTrue (by rw [h]) else isFalse (fun he => by cases he; exact h rfl)
  | Except.ok _, Except.error _ => isFalse (fun he => by cases he)
  | Except.error _, Except.ok _ => isFalse (fun he => by cases he)

/-- One profile together with its collaborator oracles: the blocks from
the cover profile, the declaration list `parser.ParseFile` yields for the
file (or the parse error), and the outcome of `ioutil.ReadFile`. -/
structure ProfileInput where
  fileName : String
  blocks : List ProfileBlock
  parseRes : Except String (List FuncDeclInfo)
  readRes : Except String Unit
deriving DecidableEq

/-- The package-lookup loop of `parseProfile`: iterate over all packages
and remember the last one whose name matches. -/
def findPkgIdx (pkgs : List Package) (nm : String) : Option Nat :=
  (List.range pkgs.length).foldl
    (fun acc i =>
      match pkgs.get? i with
      | some p => if p.name = nm then some i else acc
      | none => acc)
    none

/-- `Coverage.parseProfile`: trim the package path from the file name,
consult the parser and the file reader (returning their errors
immediately, as the Go code does with `if err != nil`), look up or
create the file's package, walk the declarations, and store the
package's recomputed line rate. -/
def parseProfile (cov : Coverage) (p : ProfileInput) : Except String Coverage :=
  match p.parseRes with
  | Except.error e => Except.error e
  | Except.ok decls =>
      match p.readRes with
      | Except.error e => Except.error e
      | Except.ok _ =>
          match findPkgIdx cov.packages (goDirPath (goTrimPre p.fileName cov.packagePath)) with
          | some i =>
              match cov.packages.get? i with
              | none => Except.ok cov
              | some pkg =>
                  let st := decls.foldl
                    (visitDecl (goTrimPre p.fileName cov.packagePath) p.blocks)
                    ⟨pkg.classes, []⟩
                  let pkg1 : Package := { pkg with classes := st.classes }
                  Except.ok { cov with
                                packages := cov.packages.set i
                                  { pkg1 with lineRate := packageHitRate pkg1 } }
          | none =>
              let pkg : Package :=
                { name := goDirPath (goTrimPre p.fileName cov.packagePath),
                  lineRate := GoFloat.val 0, classes := [] }
              let st := decls.foldl
                (visitDecl (goTrimPre p.fileName cov.packagePath) p.blocks)
                ⟨pkg.classes, []⟩
              let pkg1 : Package := { pkg with classes := st.classes }
              Except.ok { cov with
                            packages := cov.packages ++
                              [{ pkg1 with lineRate := packageHitRate pkg1 }] }

/-- The profile loop of `Coverage.ParseProfiles`: process profiles in
order, returning the first error unchanged. -/
def parseProfilesLoop : Coverage → List ProfileInput → Except String Coverage
  | cov, [] => Except.ok cov
  | cov, p :: ps =>
      match parseProfile cov p with
      | Except.error e => Except.error e
      | Except.ok cov1 => parseProfilesLoop cov1 ps

/-- `Coverage.ParseProfiles`: reset the package list, run the loop, then
store the report-level totals and line rate. -/
def ParseProfiles (cov : Coverage) (ps : List ProfileInput) : Except String Coverage :=
  match parseProfilesLoop { cov with packages := [] } ps with
  | Except.error e => Except.error e
  | Except.ok cov1 =>
      Except.ok { cov1 with
                    linesValid := covNumLines cov1,
                    linesCovered := covNumHits cov1,
                    lineRate := covHitRate cov1 }

-- sanity: one file with one free function spanning lines 1..5, one block
-- on lines 2..3 (rates are ℚ-valued and compared only via projections)
example :
    Except.map
      (fun cov : Coverage =>
        (cov.linesValid, cov.linesCovered,
          cov.packages.map (fun p =>
            (p.name, p.classes.map (fun c => (c.name, c.filename, c.lines))))))
      (ParseProfiles ⟨"", GoFloat.val 0, 0, 0, []⟩
        [⟨"d/a.go", [⟨2, 1, 3, 9, 1⟩], Except.ok [⟨"f", none, 1, 1, 5, 2⟩], Except.ok ()⟩])
      = Except.ok (2, 2, [("d", [("-", "d/a.go", [⟨2, 1⟩, ⟨3, 1⟩])])]) := by rfl

/-! ## Lemmas about the line ledger -/

theorem addOrUpdateLine_ne_nil : ∀ (ls : List Line) (n h : Int),
    addOrUpdateLine ls n h ≠ []
  | [], n, h => by simp [addOrUpdateLine]
  | [a], n, h => by
      simp only [addOrUpdateLine]
      split
      · split <;> simp
      · simp
  | a :: b :: rest, n, h => by simp [addOrUpdateLine]

/-- A call whose line number differs from the last entry's appends. -/
theorem addOrUpdateLine_fresh : ∀ (ls : List Line) (n h : Int),
    (∀ a ∈ ls.getLast?, a.number ≠ n) →
    addOrUpdateLine ls n h = ls ++ [⟨n, h⟩]
  | [], _, _, _ => rfl
  | [a], n, h, hne => by
      have ha : a.number ≠ n := hne a (by simp)
      simp [addOrUpdateLine, Ne.symm ha]
  | a :: b :: rest, n, h, hne => by
      have : addOrUpdateLine (b :: rest) n h = (b :: rest) ++ [⟨n, h⟩] :=
        addOrUpdateLine_fresh (b :: rest) n h (by simpa using hne)
      simp [addOrUpdateLine, this]

/-- A call whose line number matches the last entry's min-merges there. -/
theorem addOrUpdateLine_last : ∀ (front : List Line) (a : Line) (n h : Int),
    a.number = n →
    addOrUpdateLine (front ++ [a]) n h = front ++ [if h < a.hits then ⟨n, h⟩ else a]
  | [], a, n, h, heq => by
      simp only [List.nil_append, addOrUpdateLine, heq, eq_self_iff_true, if_true]
      split <;> rfl
  | x :: front, a, n, h, heq => by
      rcases hfa : front ++ [a] with _ | ⟨b, rest⟩
      · simp at hfa
      · have : addOrUpdateLine (b :: rest) n h = front ++ [if h < a.hits then ⟨n, h⟩ else a] := by
          rw [← hfa]; exact addOrUpdateLine_last front a n h heq
        simp only [List.cons_append, hfa, addOrUpdateLine, this]

/-- Full case analysis of one `AddOrUpdateLine` call: it appends, lowers
the last entry's hits, or leaves the ledger untouched. -/
theorem addOrUpdateLine_cases : ∀ (ls : List Line) (n h : Int),
    addOrUpdateLine ls n h = ls ++ [⟨n, h⟩] ∨
    ∃ front a, ls = front ++ [a] ∧ a.number = n ∧
      ((h < a.hits ∧ addOrUpdateLine ls n h = front ++ [⟨n, h⟩]) ∨
       (a.hits ≤ h ∧ addOrUpdateLine ls n h = ls)) := by
  intro ls n h
  rcases hl : ls.getLast? with _ | a
  · left
    exact addOrUpdateLine_fresh ls n h (by simp [hl])
  · by_cases hnum : a.number = n
    · right
      have hne : ls ≠ [] := by intro he; rw [he] at hl; simp at hl
      have hgl : ls.getLast hne = a := by
        have hq := List.getLast?_eq_getLast ls hne
        rw [hq] at hl
        exact Option.some_inj.mp hl
      have hdecomp : ls = ls.dropLast ++ [a] := by
        conv_lhs => rw [← List.dropLast_append_getLast hne]
        rw [hgl]
      refine ⟨ls.dropLast, a, hdecomp, hnum, ?_⟩
      by_cases hlt : h < a.hits
      · left
        refine ⟨hlt, ?_⟩
        calc addOrUpdateLine ls n h
            = addOrUpdateLine (ls.dropLast ++ [a]) n h := by rw [← hdecomp]
          _ = ls.dropLast ++ [if h < a.hits then ⟨n, h⟩ else a] :=
              addOrUpdateLine_last _ a n h hnum
          _ = ls.dropLast ++ [⟨n, h⟩] := by rw [if_pos hlt]
      · right
        refine ⟨by omega, ?_⟩
        calc addOrUpdateLine ls n h
            = addOrUpdateLine (ls.dropLast ++ [a]) n h := by rw [← hdecomp]
          _ = ls.dropLast ++ [if h < a.hits then ⟨n, h⟩ else a] :=
              addOrUpdateLine_last _ a n h hnum
          _ = ls.dropLast ++ [a] := by rw [if_neg hlt]
          _ = ls := hdecomp.symm
    · left
      exact addOrUpdateLine_fresh ls n h (by simp [hl]; exact hnum)

theorem methodLinesAux_cons (d : FuncDeclInfo) (b : ProfileBlock) (bs : List ProfileBlock)
    (acc : List Line) :
    methodLinesAux d (b :: bs) acc =
      if b.startLine > d.endLine ∨ (b.startLine = d.endLine ∧ b.startCol ≥ d.endCol) then
        acc
      else if b.endLine < d.startLine ∨ (b.endLine = d.startLine ∧ b.endCol ≤ d.startCol) then
        methodLinesAux d bs acc
      else
        methodLinesAux d bs (attributeBlock acc b) := rfl

/-- Re-running the same `AddOrUpdateLine` call is a no-op. -/
theorem addOrUpdateLine_idem (ls : List Line) (n h : Int) :
    addOrUpdateLine (addOrUpdateLine ls n h) n h = addOrUpdateLine ls n h := by
  rcases addOrUpdateLine_cases ls n h with hap | ⟨front, a, _, _, hca⟩
  · rw [hap, addOrUpdateLine_last ls ⟨n, h⟩ n h rfl]
    simp
  · rcases hca with ⟨_, heq⟩ | ⟨_, heq⟩
    · rw [heq, addOrUpdateLine_last front ⟨n, h⟩ n h rfl]
      simp
    · rw [heq]
      exact heq

/-- Attributing a single-line block is one `AddOrUpdateLine` call. -/
theorem attributeBlock_single (acc : List Line) (b : ProfileBlock)
    (hb : b.startLine = b.endLine) :
    attributeBlock acc b = addOrUpdateLine acc b.startLine b.count := by
  unfold attributeBlock blockLineNumbers
  rw [← hb]
  have h1 : (b.startLine - b.startLine + 1).toNat = 1 := by omega
  have h2 : List.range 1 = [0] := rfl
  rw [h1, h2]
  simp [List.foldl]

/-! ## Claims C1, C3, C4, C10 -/

/-- C1 counterexample: on the spec's scenario (declaration spanning lines
10–20, block lines 10–15 with count 3 then block lines 14–20 with count 0,
sorted by start position) the Block Attributor does NOT produce the ledger
10–13 ↦ 3, 14–20 ↦ 0 that the claim states: `AddOrUpdateLine` min-merges
only against the last entry, so the second block re-appends lines 14 and
15 after the first block's entries. Columns are instantiated concretely;
both blocks overlap the declaration. -/
theorem claimC1_counterexample :
    methodLines ⟨"f", none, 10, 1, 20, 10⟩ [⟨10, 1, 15, 5, 3⟩, ⟨14, 1, 20, 5, 0⟩] ≠
      [⟨10, 3⟩, ⟨11, 3⟩, ⟨12, 3⟩, ⟨13, 3⟩, ⟨14, 0⟩, ⟨15, 0⟩,
       ⟨16, 0⟩, ⟨17, 0⟩, ⟨18, 0⟩, ⟨19, 0⟩, ⟨20, 0⟩] := by decide

/-- C1 amended: on that scenario the ledger the code actually produces is
lines 10–15 with hits 3 (from the first block) followed by lines 14–20
with hits 0 (from the second block), with duplicated out-of-order entries
for the overlap lines 14–15 — no min-merge happens because those lines
are no longer the last entry when the second block writes them. -/
theorem claimC1_actual_ledger :
    methodLines ⟨"f", none, 10, 1, 20, 10⟩ [⟨10, 1, 15, 5, 3⟩, ⟨14, 1, 20, 5, 0⟩] =
      [⟨10, 3⟩, ⟨11, 3⟩, ⟨12, 3⟩, ⟨13, 3⟩, ⟨14, 3⟩, ⟨15, 3⟩, ⟨14, 0⟩, ⟨15, 0⟩,
       ⟨16, 0⟩, ⟨17, 0⟩, ⟨18, 0⟩, ⟨19, 0⟩, ⟨20, 0⟩] := by decide

theorem methodLinesAux_dup_single (d : FuncDeclInfo) (b : ProfileBlock)
    (hb : b.startLine = b.endLine) :
    ∀ (pre post : List ProfileBlock) (acc : List Line),
      methodLinesAux d (pre ++ b :: b :: post) acc =
        methodLinesAux d (pre ++ b :: post) acc := by
  intro pre
  induction pre with
  | nil =>
      intro post acc
      simp only [List.nil_append, methodLinesAux_cons]
      split_ifs with h1 h2
      · rfl
      · rfl
      · rw [attributeBlock_single (attributeBlock acc b) b hb,
            attributeBlock_single acc b hb, addOrUpdateLine_idem]
  | cons p pre ih =>
      intro post acc
      simp only [List.cons_append, methodLinesAux_cons]
      split_ifs with h1 h2
      · rfl
      · exact ih post acc
      · exact ih post _

/-- C3 counterexample: attributing the same multi-line block twice in
succession does not equal attributing it once — the second attribution
starts again at the block's first line, which is no longer the last
ledger entry, so duplicate entries are appended. -/
theorem claimC3_counterexample :
    methodLines ⟨"f", none, 1, 1, 50, 2⟩ [⟨10, 1, 11, 5, 5⟩, ⟨10, 1, 11, 5, 5⟩] ≠
      methodLines ⟨"f", none, 1, 1, 50, 2⟩ [⟨10, 1, 11, 5, 5⟩] := by decide

/-- C3 amended: re-attribution is idempotent for a block covering a
single source line (then every write of the second pass min-merges with
the identical last entry); for every declaration and every surrounding
sorted block context, a single-line block appearing twice consecutively
yields the same ledger as appearing once. -/
theorem claimC3_single_line_idem (d : FuncDeclInfo) (b : ProfileBlock)
    (pre post : List ProfileBlock) (hb : b.startLine = b.endLine) :
    methodLines d (pre ++ b :: b :: post) = methodLines d (pre ++ b :: post) :=
  methodLinesAux_dup_single d b hb pre post []

theorem claimC3_single_line_idem_witness :
    methodLines ⟨"f", none, 1, 1, 50, 2⟩ [⟨10, 1, 10, 5, 5⟩, ⟨10, 1, 10, 5, 5⟩] =
      methodLines ⟨"f", none, 1, 1, 50, 2⟩ [⟨10, 1, 10, 5, 5⟩] :=
  claimC3_single_line_idem ⟨"f", none, 1, 1, 50, 2⟩ ⟨10, 1, 10, 5, 5⟩ [] [] rfl

/-- C4: when a line number `nL` different from the last recorded line is
written twice in a row (`recordOrMerge(nL, h1)` then `recordOrMerge(nL,
h2)`), exactly one entry is appended for `nL` and its hit count is
`min h1 h2` — the first call creates the entry, the second min-merges
into it. -/
theorem claimC4_merge_min (ls : List Line) (nL h1 h2 : Int)
    (hfresh : ∀ a ∈ ls.getLast?, a.number ≠ nL) :
    addOrUpdateLine (addOrUpdateLine ls nL h1) nL h2 = ls ++ [⟨nL, min h1 h2⟩] := by
  rw [addOrUpdateLine_fresh ls nL h1 hfresh,
      addOrUpdateLine_last ls ⟨nL, h1⟩ nL h2 rfl]
  dsimp only
  congr 1
  split_ifs with hlt <;> simp [Line.mk.injEq] <;> omega

theorem claimC4_merge_min_witness :
    addOrUpdateLine (addOrUpdateLine [⟨1, 9⟩] 2 5) 2 3 = [⟨1, 9⟩] ++ [⟨2, min 5 3⟩] :=
  claimC4_merge_min [⟨1, 9⟩] 2 5 3 (by intro a ha; simp at ha; subst ha; decide)

/-- C10 counterexample: a call whose line number equals the last entry's
but whose hit count is not smaller leaves the ledger completely unchanged
— it neither appends a new entry nor decreases the last entry's hit
count, so the claim's two-way disjunction is false at this input. -/
theorem claimC10_counterexample :
    addOrUpdateLine [⟨5, 3⟩] 5 7 = [⟨5, 3⟩] ∧
    ([⟨5, 3⟩] : List Line) ≠ [⟨5, 3⟩] ++ [⟨5, 7⟩] := by decide

/-- C10 amended: every `AddOrUpdateLine` call either appends exactly one
new entry at the end, or — when the line number equals the last entry's —
decreases that last entry's hit count (when the new count is strictly
smaller) or leaves the ledger unchanged (otherwise). In particular no
entry other than the last is modified, no entry is removed, no line
number changes, and no hit count increases. -/
theorem claimC10_frame (ls : List Line) (n h : Int) :
    addOrUpdateLine ls n h = ls ++ [⟨n, h⟩] ∨
    ∃ front a, ls = front ++ [a] ∧ a.number = n ∧
      ((h < a.hits ∧ addOrUpdateLine ls n h = front ++ [⟨n, h⟩]) ∨
       (a.hits ≤ h ∧ addOrUpdateLine ls n h = ls)) :=
  addOrUpdateLine_cases ls n h

/-! ## Claim C2: the ordering invariant -/

/-- The (line number, hit count) pairs the block scan feeds to
`AddOrUpdateLine`, in order: the same scan as `methodLinesAux`, recording
each attributed block's line range paired with its count. -/
def attributedPairs (d : FuncDeclInfo) : List ProfileBlock → List (Int × Int)
  | [] => []
  | b :: bs =>
      if b.startLine > d.endLine ∨ (b.startLine = d.endLine ∧ b.startCol ≥ d.endCol) then
        []
      else if b.endLine < d.startLine ∨ (b.endLine = d.startLine ∧ b.endCol ≤ d.startCol) then
        attributedPairs d bs
      else
        (blockLineNumbers b).map (fun i => (i, b.count)) ++ attributedPairs d bs

/-- Folding a pair list into a ledger with `AddOrUpdateLine`. -/
def feedPairs (acc : List Line) (ps : List (Int × Int)) : List Line :=
  ps.foldl (fun ls pr => addOrUpdateLine ls pr.1 pr.2) acc

theorem attributeBlock_eq_feed (acc : List Line) (b : ProfileBlock) :
    attributeBlock acc b =
      feedPairs acc ((blockLineNumbers b).map (fun i => (i, b.count))) := by
  simp [attributeBlock, feedPairs, List.foldl_map]

theorem feedPairs_append (acc : List Line) (xs ys : List (Int × Int)) :
    feedPairs acc (xs ++ ys) = feedPairs (feedPairs acc xs) ys := by
  simp [feedPairs, List.foldl_append]

theorem methodLinesAux_eq_feed (d : FuncDeclInfo) :
    ∀ (bs : List ProfileBlock) (acc : List Line),
      methodLinesAux d bs acc = feedPairs acc (attributedPairs d bs)
  | [], acc => rfl
  | b :: bs, acc => by
      rw [methodLinesAux_cons]
      unfold attributedPairs
      split_ifs with h1 h2
      · rfl
      · exact methodLinesAux_eq_feed d bs acc
      · rw [methodLinesAux_eq_feed d bs (attributeBlock acc b), feedPairs_append,
            attributeBlock_eq_feed]

/-- The head of an `AddOrUpdateLine` result on a non-empty ledger keeps
the first entry's line number. -/
theorem addOrUpdateLine_head_number (c : Line) (cs : List Line) (n h : Int) :
    ∃ y ys, addOrUpdateLine (c :: cs) n h = y :: ys ∧ y.number = c.number := by
  cases cs with
  | nil =>
      simp only [addOrUpdateLine]
      split_ifs with h1 h2
      · exact ⟨⟨n, h⟩, [], rfl, h1⟩
      · exact ⟨c, [], rfl, rfl⟩
      · exact ⟨c, [⟨n, h⟩], rfl, rfl⟩
  | cons b rest => exact ⟨c, addOrUpdateLine (b :: rest) n h, rfl, rfl⟩

/-- An `AddOrUpdateLine` call with a line number at least the last
entry's keeps the ledger strictly increasing and makes the given line
number the last entry's. -/
theorem addOrUpdateLine_chain : ∀ (ls : List Line) (n h : Int),
    List.Chain' (· < ·) (ls.map Line.number) →
    (∀ a ∈ ls.getLast?, a.number ≤ n) →
    List.Chain' (· < ·) ((addOrUpdateLine ls n h).map Line.number) ∧
    ∃ y, (addOrUpdateLine ls n h).getLast? = some y ∧ y.number = n
  | [], n, h, _, _ => ⟨by simp [addOrUpdateLine], ⟨n, h⟩, by simp [addOrUpdateLine], rfl⟩
  | [a], n, h, _, hl => by
      have han : a.number ≤ n := hl a (by simp)
      by_cases heq : n = a.number
      · simp only [addOrUpdateLine, if_pos heq]
        split_ifs with hlt
        · exact ⟨by simp, ⟨n, h⟩, by simp, rfl⟩
        · exact ⟨by simp, a, by simp, heq.symm⟩
      · have hlt : a.number < n := lt_of_le_of_ne han (fun e => heq e.symm)
        simp only [addOrUpdateLine, if_neg heq]
        exact ⟨by simp [hlt], ⟨n, h⟩, by simp, rfl⟩
  | a :: b :: rest, n, h, hc, hl => by
      have hc' : List.Chain' (· < ·) ((b :: rest).map Line.number) := by
        simp only [List.map_cons] at hc ⊢
        exact hc.tail
      have hab : a.number < b.number := by
        simp only [List.map_cons] at hc
        exact (List.chain'_cons.mp hc).1
      have hl' : ∀ x ∈ (b :: rest).getLast?, x.number ≤ n := by
        intro x hx
        exact hl x (by simpa using hx)
      obtain ⟨ihc, y, hy, hyn⟩ := addOrUpdateLine_chain (b :: rest) n h hc' hl'
      obtain ⟨z, zs, hz, hzn⟩ := addOrUpdateLine_head_number b rest n h
      constructor
      · show List.Chain' (· < ·) ((a :: addOrUpdateLine (b :: rest) n h).map Line.number)
        rw [List.map_cons]
        refine List.chain'_cons'.mpr ⟨?_, ihc⟩
        intro w hw
        rw [hz] at hw
        simp only [List.map_cons, List.head?_cons] at hw
        have hwz : w = z.number := by simpa using hw.symm
        rw [hwz, hzn]
        exact hab
      · refine ⟨y, ?_, hyn⟩
        show (a :: addOrUpdateLine (b :: rest) n h).getLast? = some y
        rw [hz] at hy ⊢
        simpa using hy

/-- Feeding a pair list with non-decreasing line numbers into a strictly
increasing ledger whose last entry does not exceed the first fed number
keeps the ledger strictly increasing. -/
theorem feedPairs_chain : ∀ (ps : List (Int × Int)) (acc : List Line),
    List.Chain' (· < ·) (acc.map Line.number) →
    List.Chain' (· ≤ ·) (ps.map Prod.fst) →
    (∀ a ∈ acc.getLast?, ∀ p ∈ ps.head?, a.number ≤ p.1) →
    List.Chain' (· < ·) ((feedPairs acc ps).map Line.number)
  | [], _, hc, _, _ => hc
  | p :: ps, acc, hc, hs, hcross => by
      have h1 : ∀ a ∈ acc.getLast?, a.number ≤ p.1 := fun a ha => hcross a ha p (by simp)
      obtain ⟨hc1, y, hy, hyn⟩ := addOrUpdateLine_chain acc p.1 p.2 hc h1
      have hs' : List.Chain' (· ≤ ·) (ps.map Prod.fst) := by
        simp only [List.map_cons] at hs
        exact hs.tail
      have hcross' : ∀ a ∈ (addOrUpdateLine acc p.1 p.2).getLast?,
          ∀ q ∈ ps.head?, a.number ≤ q.1 := by
        intro a ha q hq
        rw [hy] at ha
        have hay : y = a := by simpa using ha
        subst hay
        rw [hyn]
        have hple := (List.chain'_cons'.mp (by simpa using hs)).1
        apply hple
        cases ps with
        | nil => simp at hq
        | cons r rs =>
            have hqr : r = q := by simpa using hq
            subst hqr
            simp
      show List.Chain' (· < ·) ((feedPairs (addOrUpdateLine acc p.1 p.2) ps).map Line.number)
      exact feedPairs_chain ps _ hc1 hs' hcross'

/-- Executable check that an integer list is strictly increasing. -/
def chainLtB : List Int → Bool
  | [] => true
  | [_] => true
  | a :: b :: rest => decide (a < b) && chainLtB (b :: rest)

/-- Executable check that an integer list is non-decreasing. -/
def chainLeB : List Int → Bool
  | [] => true
  | [_] => true
  | a :: b :: rest => decide (a ≤ b) && chainLeB (b :: rest)

theorem chainLtB_iff : ∀ xs : List Int, chainLtB xs = true ↔ List.Chain' (· < ·) xs
  | [] => by simp [chainLtB]
  | [a] => by simp [chainLtB]
  | a :: b :: rest => by
      simp [chainLtB, List.chain'_cons, chainLtB_iff (b :: rest), and_comm]

theorem chainLeB_iff : ∀ xs : List Int, chainLeB xs = true ↔ List.Chain' (· ≤ ·) xs
  | [] => by simp [chainLeB]
  | [a] => by simp [chainLeB]
  | a :: b :: rest => by
      simp [chainLeB, List.chain'_cons, chainLeB_iff (b :: rest), and_comm]

/-- C2 counterexample: for blocks sorted by start position but with
overlapping line ranges, the ledger the Block Attributor produces is not
strictly increasing — the claim's only hypothesis (sortedness by start
position) is not enough. -/
theorem claimC2_counterexample :
    ¬ List.Chain' (· < ·)
      ((methodLines ⟨"g", none, 10, 1, 20, 10⟩
          [⟨10, 1, 15, 5, 2⟩, ⟨14, 1, 20, 5, 1⟩]).map Line.number) := by
  rw [← chainLtB_iff]
  decide

/-- C2 amended: the ledger's line numbers are strictly increasing
provided the sequence of line numbers the scan actually feeds to
`AddOrUpdateLine` (the attributed blocks' line ranges, in scan order) is
non-decreasing — which holds for non-overlapping sorted blocks but can
fail when an attributed block's line range starts before a previous
attributed block's end line. -/
theorem claimC2_sorted_ledger (d : FuncDeclInfo) (bs : List ProfileBlock)
    (hmono : List.Chain' (· ≤ ·) ((attributedPairs d bs).map Prod.fst)) :
    List.Chain' (· < ·) ((methodLines d bs).map Line.number) := by
  rw [methodLines, methodLinesAux_eq_feed]
  exact feedPairs_chain (attributedPairs d bs) [] (by simp) hmono (by simp)

theorem claimC2_sorted_ledger_witness :
    List.Chain' (· ≤ ·)
      ((attributedPairs ⟨"g", none, 1, 1, 100, 2⟩
          [⟨1, 1, 3, 9, 2⟩, ⟨3, 1, 5, 9, 1⟩]).map Prod.fst) ∧
    List.Chain' (· < ·)
      ((methodLines ⟨"g", none, 1, 1, 100, 2⟩
          [⟨1, 1, 3, 9, 2⟩, ⟨3, 1, 5, 9, 1⟩]).map Line.number) :=
  ⟨(chainLeB_iff _).mp (by decide),
   claimC2_sorted_ledger _ _ ((chainLeB_iff _).mp (by decide))⟩

/-! ## Claim C5: boundary block exclusion -/

/-- C5: a block ending exactly at the declaration's start position is
skipped, contributing zero ledger entries while the scan continues with
the remaining blocks; a block starting exactly at the declaration's end
position stops the scan immediately, so it and every later block
contribute nothing. Hypotheses: the declaration's span is non-empty and
the block's start position does not come after its end position. -/
theorem claimC5_boundary (d : FuncDeclInfo) (b : ProfileBlock) (bs : List ProfileBlock)
    (acc : List Line)
    (hd : d.startLine < d.endLine ∨ (d.startLine = d.endLine ∧ d.startCol < d.endCol))
    (hb : b.startLine < b.endLine ∨ (b.startLine = b.endLine ∧ b.startCol ≤ b.endCol)) :
    ((b.endLine = d.startLine ∧ b.endCol = d.startCol) →
        methodLinesAux d (b :: bs) acc = methodLinesAux d bs acc) ∧
    ((b.startLine = d.endLine ∧ b.startCol = d.endCol) →
        methodLinesAux d (b :: bs) acc = acc) := by
  constructor
  · rintro ⟨he1, he2⟩
    have hnp : ¬ (b.startLine > d.endLine ∨ (b.startLine = d.endLine ∧ b.startCol ≥ d.endCol)) := by
      rcases hd with hd1 | ⟨hd1, hd2⟩ <;> rcases hb with hb1 | ⟨hb1, hb2⟩ <;>
        rintro (hp1 | ⟨hp1, hp2⟩) <;> omega
    have hbef : b.endLine < d.startLine ∨ (b.endLine = d.startLine ∧ b.endCol ≤ d.startCol) :=
      Or.inr ⟨he1, le_of_eq he2⟩
    rw [methodLinesAux_cons, if_neg hnp, if_pos hbef]
  · rintro ⟨hs1, hs2⟩
    have hp : b.startLine > d.endLine ∨ (b.startLine = d.endLine ∧ b.startCol ≥ d.endCol) :=
      Or.inr ⟨hs1, le_of_eq hs2.symm⟩
    rw [methodLinesAux_cons, if_pos hp]

theorem claimC5_boundary_witness :
    methodLinesAux ⟨"h", none, 3, 2, 9, 5⟩ [⟨1, 1, 3, 2, 4⟩] [] =
      methodLinesAux ⟨"h", none, 3, 2, 9, 5⟩ [] [] ∧
    methodLinesAux ⟨"h", none, 3, 2, 9, 5⟩ [⟨9, 5, 9, 6, 4⟩, ⟨1, 1, 2, 2, 7⟩] [] = [] :=
  ⟨(claimC5_boundary ⟨"h", none, 3, 2, 9, 5⟩ ⟨1, 1, 3, 2, 4⟩ [] []
      (by decide) (by decide)).1 ⟨rfl, rfl⟩,
   (claimC5_boundary ⟨"h", none, 3, 2, 9, 5⟩ ⟨9, 5, 9, 6, 4⟩ [⟨1, 1, 2, 2, 7⟩] []
      (by decide) (by decide)).2 ⟨rfl, rfl⟩⟩

/-! ## Claim C8: hit rates -/

theorem linesNumHits_nonneg (ls : List Line) : 0 ≤ linesNumHits ls :=
  Int.natCast_nonneg _

theorem linesNumHits_le (ls : List Line) : linesNumHits ls ≤ linesNumLines ls := by
  unfold linesNumHits linesNumLines
  exact_mod_cast List.length_filter_le _ _

theorem classNumHits_nonneg (c : Class) : 0 ≤ classNumHits c := by
  apply List.sum_nonneg
  intro x hx
  simp only [List.mem_map] at hx
  obtain ⟨m, _, rfl⟩ := hx
  exact linesNumHits_nonneg m.lines

theorem classNumHits_le (c : Class) : classNumHits c ≤ classNumLines c := by
  unfold classNumHits classNumLines
  apply List.sum_le_sum
  intro m _
  exact linesNumHits_le m.lines

theorem packageNumHits_nonneg (p : Package) : 0 ≤ packageNumHits p := by
  apply List.sum_nonneg
  intro x hx
  simp only [List.mem_map] at hx
  obtain ⟨c, _, rfl⟩ := hx
  exact classNumHits_nonneg c

theorem packageNumHits_le (p : Package) : packageNumHits p ≤ packageNumLines p := by
  unfold packageNumHits packageNumLines
  apply List.sum_le_sum
  intro c _
  exact classNumHits_le c

theorem covNumHits_nonneg (cov : Coverage) : 0 ≤ covNumHits cov := by
  apply List.sum_nonneg
  intro x hx
  simp only [List.mem_map] at hx
  obtain ⟨p, _, rfl⟩ := hx
  exact packageNumHits_nonneg p

theorem covNumHits_le (cov : Coverage) : covNumHits cov ≤ covNumLines cov := by
  unfold covNumHits covNumLines
  apply List.sum_le_sum
  intro p _
  exact packageNumHits_le p

theorem floatDiv_zero_nan (num : Int) (h0 : 0 ≤ num) (hle : num ≤ 0) :
    floatDiv num 0 = GoFloat.nan := by
  have hz : num = 0 := le_antisymm hle h0
  simp [floatDiv, hz]

theorem floatDiv_unit (num den : Int) (h0 : 0 ≤ num) (hle : num ≤ den) (hden : den ≠ 0) :
    isUnitRateB (floatDiv num den) = true := by
  have hdpos : 0 < den := by omega
  simp only [floatDiv, if_neg hden, isUnitRateB, Bool.and_eq_true, decide_eq_true_eq]
  constructor
  · apply div_nonneg
    · exact_mod_cast h0
    · exact_mod_cast le_of_lt hdpos
  · rw [div_le_one (by exact_mod_cast hdpos)]
    exact_mod_cast hle

/-- C8: `HitRate` on an empty ledger is NaN (a value, not an exception,
and distinct from the ordinary values 0 and 1); the same NaN results for
a method, class, package, or report whose total attributed line count is
zero; in every other case the returned rate is an ordinary value lying
in [0, 1]. -/
theorem claimC8_hitRate (ls : List Line) (m : Method) (c : Class) (p : Package)
    (cov : Coverage) :
    linesHitRate [] = GoFloat.nan ∧
    (m.lines = [] → methodHitRate m = GoFloat.nan) ∧
    (classNumLines c = 0 → classHitRate c = GoFloat.nan) ∧
    (packageNumLines p = 0 → packageHitRate p = GoFloat.nan) ∧
    (covNumLines cov = 0 → covHitRate cov = GoFloat.nan) ∧
    (ls ≠ [] → isUnitRateB (linesHitRate ls) = true) ∧
    (classNumLines c ≠ 0 → isUnitRateB (classHitRate c) = true) ∧
    (packageNumLines p ≠ 0 → isUnitRateB (packageHitRate p) = true) ∧
    (covNumLines cov ≠ 0 → isUnitRateB (covHitRate cov) = true) ∧
    GoFloat.nan ≠ GoFloat.val 0 ∧ GoFloat.nan ≠ GoFloat.val 1 := by
  refine ⟨by simp [linesHitRate, linesNumHits, linesNumLines, floatDiv], ?_, ?_, ?_, ?_,
    ?_, ?_, ?_, ?_, by simp, by simp⟩
  · intro hm
    simp [methodHitRate, hm, linesHitRate, linesNumHits, linesNumLines, floatDiv]
  · intro hc
    rw [classHitRate, hc]
    exact floatDiv_zero_nan _ (classNumHits_nonneg c) (hc ▸ classNumHits_le c)
  · intro hp
    rw [packageHitRate, hp]
    exact floatDiv_zero_nan _ (packageNumHits_nonneg p) (hp ▸ packageNumHits_le p)
  · intro hcov
    rw [covHitRate, hcov]
    exact floatDiv_zero_nan _ (covNumHits_nonneg cov) (hcov ▸ covNumHits_le cov)
  · intro hne
    apply floatDiv_unit _ _ (linesNumHits_nonneg ls) (linesNumHits_le ls)
    simpa [linesNumLines] using hne
  · intro hne
    exact floatDiv_unit _ _ (classNumHits_nonneg c) (classNumHits_le c) hne
  · intro hne
    exact floatDiv_unit _ _ (packageNumHits_nonneg p) (packageNumHits_le p) hne
  · intro hne
    exact floatDiv_unit _ _ (covNumHits_nonneg cov) (covNumHits_le cov) hne

theorem claimC8_hitRate_witness :
    linesHitRate [] = GoFloat.nan ∧
    methodHitRate ⟨"m", GoFloat.nan, []⟩ = GoFloat.nan ∧
    classHitRate ⟨"c", "f.go", GoFloat.nan, [], []⟩ = GoFloat.nan ∧
    packageHitRate ⟨"p", GoFloat.nan, []⟩ = GoFloat.nan ∧
    covHitRate ⟨"", GoFloat.nan, 0, 0, []⟩ = GoFloat.nan ∧
    isUnitRateB (linesHitRate [⟨7, 2⟩, ⟨8, 0⟩]) = true ∧
    isUnitRateB (classHitRate ⟨"c", "f.go", GoFloat.nan,
      [⟨"m", GoFloat.nan, [⟨7, 2⟩]⟩], [⟨7, 2⟩]⟩) = true ∧
    isUnitRateB (packageHitRate ⟨"p", GoFloat.nan, [⟨"c", "f.go", GoFloat.nan,
      [⟨"m", GoFloat.nan, [⟨7, 2⟩]⟩], [⟨7, 2⟩]⟩]⟩) = true ∧
    isUnitRateB (covHitRate ⟨"", GoFloat.nan, 0, 0, [⟨"p", GoFloat.nan,
      [⟨"c", "f.go", GoFloat.nan, [⟨"m", GoFloat.nan, [⟨7, 2⟩]⟩], [⟨7, 2⟩]⟩]⟩]⟩) = true := by
  have hE := claimC8_hitRate [] ⟨"m", GoFloat.nan, []⟩ ⟨"c", "f.go", GoFloat.nan, [], []⟩
    ⟨"p", GoFloat.nan, []⟩ ⟨"", GoFloat.nan, 0, 0, []⟩
  have hN := claimC8_hitRate [⟨7, 2⟩, ⟨8, 0⟩] ⟨"m", GoFloat.nan, []⟩
    ⟨"c", "f.go", GoFloat.nan, [⟨"m", GoFloat.nan, [⟨7, 2⟩]⟩], [⟨7, 2⟩]⟩
    ⟨"p", GoFloat.nan, [⟨"c", "f.go", GoFloat.nan, [⟨"m", GoFloat.nan, [⟨7, 2⟩]⟩], [⟨7, 2⟩]⟩]⟩
    ⟨"", GoFloat.nan, 0, 0, [⟨"p", GoFloat.nan,
      [⟨"c", "f.go", GoFloat.nan, [⟨"m", GoFloat.nan, [⟨7, 2⟩]⟩], [⟨7, 2⟩]⟩]⟩]⟩
  exact ⟨hE.1, hE.2.1 rfl, hE.2.2.1 (by decide), hE.2.2.2.1 (by decide),
    hE.2.2.2.2.1 (by decide), hN.2.2.2.2.2.1 (by decide),
    hN.2.2.2.2.2.2.1 (by decide), hN.2.2.2.2.2.2.2.1 (by decide),
    hN.2.2.2.2.2.2.2.2.1 (by decide)⟩

/-! ## Claim C9: error propagation -/

theorem parseProfilesLoop_append (cov : Coverage) (xs ys : List ProfileInput) :
    parseProfilesLoop cov (xs ++ ys) =
      match parseProfilesLoop cov xs with
      | Except.error e => Except.error e
      | Except.ok cov1 => parseProfilesLoop cov1 ys := by
  induction xs generalizing cov with
  | nil => simp [parseProfilesLoop]
  | cons p ps ih =>
      simp only [List.cons_append, parseProfilesLoop]
      cases parseProfile cov p with
      | error e => rfl
      | ok cov1 => exact ih cov1

theorem parseProfile_parse_error (cov : Coverage) (p : ProfileInput) (e : String)
    (hp : p.parseRes = Except.error e) :
    parseProfile cov p = Except.error e := by
  unfold parseProfile
  rw [hp]

theorem parseProfile_read_error (cov : Coverage) (p : ProfileInput)
    (ds : List FuncDeclInfo) (e : String)
    (hp : p.parseRes = Except.ok ds) (hr : p.readRes = Except.error e) :
    parseProfile cov p = Except.error e := by
  unfold parseProfile
  rw [hp]
  simp only
  rw [hr]

/-- C9: when a profile's collaborators fail — its source fails to parse,
or (after a successful parse) its file cannot be read — the conversion
returns exactly that error: the loop stops at the failing profile, every
later profile is ignored (the conclusion holds for an arbitrary
continuation `ps2`), and no report value is produced. -/
theorem claimC9_abort (cov cov1 : Coverage) (ps1 ps2 : List ProfileInput)
    (p : ProfileInput) (e : String)
    (h1 : parseProfilesLoop { cov with packages := [] } ps1 = Except.ok cov1)
    (h2 : p.parseRes = Except.error e ∨
          (p.readRes = Except.error e ∧ ∃ ds, p.parseRes = Except.ok ds)) :
    ParseProfiles cov (ps1 ++ p :: ps2) = Except.error e := by
  have hp : parseProfile cov1 p = Except.error e := by
    rcases h2 with hpe | ⟨hr, ds, hps⟩
    · exact parseProfile_parse_error cov1 p e hpe
    · exact parseProfile_read_error cov1 p ds e hps hr
  unfold ParseProfiles
  rw [parseProfilesLoop_append, h1]
  simp [parseProfilesLoop, hp]

theorem claimC9_abort_witness :
    ParseProfiles ⟨"", GoFloat.nan, 0, 0, []⟩
      ([] ++ (⟨"bad.go", [], Except.error "boom", Except.ok ()⟩ : ProfileInput) ::
        [⟨"later.go", [], Except.ok [], Except.ok ()⟩]) = Except.error "boom" :=
  claimC9_abort ⟨"", GoFloat.nan, 0, 0, []⟩ ⟨"", GoFloat.nan, 0, 0, []⟩ []
    [⟨"later.go", [], Except.ok [], Except.ok ()⟩]
    ⟨"bad.go", [], Except.error "boom", Except.ok ()⟩ "boom" rfl (Or.inl rfl)

/-! ## Claim C6: rollup equivalence -/

theorem linesNumLines_append (xs ys : List Line) :
    linesNumLines (xs ++ ys) = linesNumLines xs + linesNumLines ys := by
  simp [linesNumLines]

theorem linesNumHits_append (xs ys : List Line) :
    linesNumHits (xs ++ ys) = linesNumHits xs + linesNumHits ys := by
  simp [linesNumHits, List.filter_append]

theorem linesNumLines_flatten : ∀ (lss : List (List Line)),
    linesNumLines lss.flatten = (lss.map linesNumLines).sum
  | [] => by simp [linesNumLines]
  | ls :: lss => by
      simp only [List.flatten_cons, List.map_cons, List.sum_cons, linesNumLines_append,
        linesNumLines_flatten lss]

theorem linesNumHits_flatten : ∀ (lss : List (List Line)),
    linesNumHits lss.flatten = (lss.map linesNumHits).sum
  | [] => by simp [linesNumHits]
  | ls :: lss => by
      simp only [List.flatten_cons, List.map_cons, List.sum_cons, linesNumHits_append,
        linesNumHits_flatten lss]

/-- A class whose `lines` field is the concatenation of its methods'
ledgers has `Class.HitRate` (computed from the methods) equal to the hit
rate of the concatenation. -/
theorem classHitRate_of_join (c : Class)
    (hj : c.lines = (c.methods.map Method.lines).flatten) :
    classHitRate c = linesHitRate c.lines := by
  unfold classHitRate linesHitRate classNumHits classNumLines
  rw [hj, linesNumHits_flatten, linesNumLines_flatten, List.map_map, List.map_map]
  rfl

/-- Invariant of every class built during the pass: its `lines` slice is
the concatenation of its methods' ledgers, its stored line rate is the
hit rate of that concatenation, and each method's stored line rate is
the hit rate of its own ledger. -/
def ClassInv (c : Class) : Prop :=
  c.lines = (c.methods.map Method.lines).flatten ∧
  c.lineRate = linesHitRate c.lines ∧
  ∀ m ∈ c.methods, m.lineRate = linesHitRate m.lines

/-- Invariant of every package after a `parseProfile` call: its stored
line rate is `Package.HitRate`, and all its classes satisfy `ClassInv`. -/
def PkgInv (p : Package) : Prop :=
  p.lineRate = packageHitRate p ∧ ∀ c ∈ p.classes, ClassInv c

theorem visitDecl_inv (fileName : String) (blocks : List ProfileBlock) (st : VState)
    (d : FuncDeclInfo) (hst : ∀ c ∈ st.classes, ClassInv c) :
    ∀ c ∈ (visitDecl fileName blocks st d).classes, ClassInv c := by
  intro c hc
  rcases hcl : lookupIdx st.fileMap (recvName d) with _ | i
  · simp only [visitDecl, hcl] at hc
    rcases List.mem_append.mp hc with h | h
    · exact hst c h
    · have hc2 := List.mem_singleton.mp h
      subst hc2
      refine ⟨by simp, rfl, ?_⟩
      intro m hm
      have hm1 : m = mkMethod d blocks := by simpa using hm
      subst hm1
      rfl
  · rcases hg : st.classes.get? i with _ | c0
    · simp only [visitDecl, hcl, hg] at hc
      exact hst c hc
    · simp only [visitDecl, hcl, hg] at hc
      rcases List.mem_or_eq_of_mem_set hc with h | h
      · exact hst c h
      · subst h
        have hc0 := hst c0 (List.get?_mem hg)
        refine ⟨?_, rfl, ?_⟩
        · show c0.lines ++ (mkMethod d blocks).lines =
            ((c0.methods ++ [mkMethod d blocks]).map Method.lines).flatten
          rw [List.map_append, List.flatten_append, hc0.1]
          simp
        · intro m hm
          rcases (by simpa using hm : m ∈ c0.methods ∨ m = mkMethod d blocks) with h1 | h1
          · exact hc0.2.2 m h1
          · subst h1
            rfl

theorem foldl_visit_inv (fileName : String) (blocks : List ProfileBlock) :
    ∀ (ds : List FuncDeclInfo) (st : VState), (∀ c ∈ st.classes, ClassInv c) →
      ∀ c ∈ (ds.foldl (visitDecl fileName blocks) st).classes, ClassInv c
  | [], _, hst => hst
  | d :: ds, st, hst =>
      foldl_visit_inv fileName blocks ds _ (visitDecl_inv fileName blocks st d hst)

theorem parseProfile_inv (cov cov1 : Coverage) (pr : ProfileInput)
    (hin : ∀ p ∈ cov.packages, PkgInv p)
    (hok : parseProfile cov pr = Except.ok cov1) :
    ∀ p ∈ cov1.packages, PkgInv p := by
  unfold parseProfile at hok
  rcases hpr : pr.parseRes with e | ds
  · rw [hpr] at hok
    simp at hok
  · rw [hpr] at hok
    simp only at hok
    rcases hrr : pr.readRes with e | u
    · rw [hrr] at hok
      simp at hok
    · rw [hrr] at hok
      simp only at hok
      rcases hfind : findPkgIdx cov.packages
          (goDirPath (goTrimPre pr.fileName cov.packagePath)) with _ | i
      · rw [hfind] at hok
        simp only at hok
        injection hok with hok
        subst hok
        intro p hp
        rcases List.mem_append.mp hp with h | h
        · exact hin p h
        · have hp2 := List.mem_singleton.mp h
          subst hp2
          exact ⟨rfl, fun c hcm => foldl_visit_inv _ _ ds ⟨[], []⟩ (by simp) c hcm⟩
      · rw [hfind] at hok
        simp only at hok
        rcases hg : cov.packages.get? i with _ | pkg
        · rw [hg] at hok
          simp only at hok
          injection hok with hok
          subst hok
          exact hin
        · rw [hg] at hok
          simp only at hok
          injection hok with hok
          subst hok
          intro p hp
          rcases List.mem_or_eq_of_mem_set hp with h | h
          · exact hin p h
          · subst h
            have hpkg := hin pkg (List.get?_mem hg)
            exact ⟨rfl, fun c hcm => foldl_visit_inv _ _ ds ⟨pkg.classes, []⟩ hpkg.2 c hcm⟩

theorem parseProfilesLoop_inv : ∀ (ps : List ProfileInput) (cov cov1 : Coverage),
    parseProfilesLoop cov ps = Except.ok cov1 → (∀ p ∈ cov.packages, PkgInv p) →
    ∀ p ∈ cov1.packages, PkgInv p
  | [], cov, cov1, hok, hin => by
      cases hok
      exact hin
  | p :: ps, cov, cov1, hok, hin => by
      simp only [parseProfilesLoop] at hok
      rcases hpp : parseProfile cov p with e | cov2
      · rw [hpp] at hok
        cases hok
      · rw [hpp] at hok
        exact parseProfilesLoop_inv ps cov2 cov1 hok (parseProfile_inv cov cov2 p hin hpp)

/-- C6: after a successful conversion run, the incrementally stored line
rates equal the statistics recomputed bottom-up from the final tree: the
report's stored rate is `LinesCovered / LinesValid` over its final
packages, each package's stored rate is its `HitRate` recomputed from its
final classes, each class's stored rate is its `HitRate` recomputed from
its final methods, and each method's stored rate is its ledger's hit
rate. -/
theorem claimC6_rollup (cov0 covF : Coverage) (ps : List ProfileInput)
    (h : ParseProfiles cov0 ps = Except.ok covF) :
    covF.lineRate = floatDiv covF.linesCovered covF.linesValid ∧
    (∀ pkg ∈ covF.packages, pkg.lineRate = packageHitRate pkg) ∧
    (∀ pkg ∈ covF.packages, ∀ cls ∈ pkg.classes, cls.lineRate = classHitRate cls) ∧
    (∀ pkg ∈ covF.packages, ∀ cls ∈ pkg.classes, ∀ m ∈ cls.methods,
        m.lineRate = methodHitRate m) := by
  unfold ParseProfiles at h
  rcases hloop : parseProfilesLoop { cov0 with packages := [] } ps with e | cov1
  · rw [hloop] at h
    cases h
  · rw [hloop] at h
    simp only [Except.ok.injEq] at h
    have hinv := parseProfilesLoop_inv ps _ cov1 hloop (by simp)
    subst h
    refine ⟨rfl, ?_, ?_, ?_⟩
    · intro pkg hpkg
      exact (hinv pkg hpkg).1
    · intro pkg hpkg cls hcls
      have hci := (hinv pkg hpkg).2 cls hcls
      rw [hci.2.1]
      exact (classHitRate_of_join cls hci.1).symm
    · intro pkg hpkg cls hcls m hm
      exact ((hinv pkg hpkg).2 cls hcls).2.2 m hm

def c6cov0 : Coverage := ⟨"", GoFloat.val 0, 0, 0, []⟩

def c6inputs : List ProfileInput :=
  [⟨"d/a.go", [⟨2, 1, 3, 9, 1⟩, ⟨4, 1, 4, 9, 0⟩],
    Except.ok [⟨"f", none, 1, 1, 5, 2⟩], Except.ok ()⟩]

def c6res : Coverage :=
  match ParseProfiles c6cov0 c6inputs with
  | Except.ok cov => cov
  | Except.error _ => c6cov0

theorem claimC6_rollup_witness :
    ParseProfiles c6cov0 c6inputs = Except.ok c6res ∧
    c6res.lineRate = floatDiv c6res.linesCovered c6res.linesValid :=
  have hok : ParseProfiles c6cov0 c6inputs = Except.ok c6res := rfl
  ⟨hok, (claimC6_rollup c6cov0 c6res c6inputs hok).1⟩

/-! ## Claim C7: class identity -/

/-- C7 counterexample: two files in the same directory, each containing
one free function, produce a single package holding TWO classes both
named `"-"`: the class map is rebuilt per file, so the second file's
visit creates a fresh class instead of reusing the first file's — the
claim's file-independence is false. -/
theorem claimC7_counterexample :
    Except.map
      (fun cov : Coverage => cov.packages.map (fun p => (p.name, p.classes.map Class.name)))
      (ParseProfiles ⟨"", GoFloat.val 0, 0, 0, []⟩
        [⟨"d/a.go", [], Except.ok [⟨"f", none, 1, 1, 5, 2⟩], Except.ok ()⟩,
         ⟨"d/b.go", [], Except.ok [⟨"g", none, 1, 1, 5, 2⟩], Except.ok ()⟩])
      = Except.ok [("d", ["-", "-"])] := by rfl

theorem map_name_set : ∀ (cs : List Class) (i : Nat) (c0 c2 : Class),
    cs.get? i = some c0 → c2.name = c0.name →
    (cs.set i c2).map Class.name = cs.map Class.name
  | [], i, _, _, hg, _ => by simp at hg
  | a :: cs, 0, c0, c2, hg, hn => by
      simp only [List.get?_cons_zero, Option.some_inj] at hg
      subst hg
      simp [hn]
  | a :: cs, i + 1, c0, c2, hg, hn => by
      simp only [List.get?_cons_succ] at hg
      simp only [List.set_cons_succ, List.map_cons]
      rw [map_name_set cs i c0 c2 hg hn]

theorem lookupIdx_none (fm : List (String × Nat)) (nm : String)
    (h : lookupIdx fm nm = none) : nm ∉ fm.map Prod.fst := by
  intro hmem
  simp only [List.mem_map] at hmem
  obtain ⟨kv, hkv, hfst⟩ := hmem
  have hfind : fm.find? (fun kv => kv.1 == nm) = none := by
    unfold lookupIdx at h
    exact Option.map_eq_none'.mp h
  have hcontra := List.find?_eq_none.mp hfind kv hkv
  simp [hfst] at hcontra

/-- Invariant of the per-file visitor state: the class slice's names are
the base package's class names followed by the file map's keys, and the
keys are pairwise distinct. -/
def VNames (base : List Class) (st : VState) : Prop :=
  st.classes.map Class.name = base.map Class.name ++ st.fileMap.map Prod.fst ∧
  (st.fileMap.map Prod.fst).Nodup

theorem visitDecl_names (fileName : String) (blocks : List ProfileBlock) (base : List Class)
    (st : VState) (d : FuncDeclInfo) (hv : VNames base st) :
    VNames base (visitDecl fileName blocks st d) := by
  unfold visitDecl
  dsimp only
  rcases hcl : lookupIdx st.fileMap (recvName d) with _ | i
  · simp only
    constructor
    · simp only [List.map_append, hv.1, List.append_assoc]
      simp
    · rw [List.map_append]
      have hnot := lookupIdx_none st.fileMap (recvName d) hcl
      simp [List.nodup_append, hv.2, hnot]
  · simp only
    rcases hg : st.classes.get? i with _ | c0
    · exact hv
    · simp only
      refine ⟨?_, hv.2⟩
      dsimp only
      rw [map_name_set st.classes i c0
        { name := c0.name, filename := c0.filename,
          lineRate := linesHitRate (c0.lines ++ (mkMethod d blocks).lines),
          methods := c0.methods ++ [mkMethod d blocks],
          lines := c0.lines ++ (mkMethod d blocks).lines } hg rfl]
      exact hv.1

theorem foldl_visit_names (fileName : String) (blocks : List ProfileBlock) (base : List Class) :
    ∀ (ds : List FuncDeclInfo) (st : VState), VNames base st →
      VNames base (ds.foldl (visitDecl fileName blocks) st)
  | [], _, hv => hv
  | d :: ds, st, hv =>
      foldl_visit_names fileName blocks base ds _ (visitDecl_names fileName blocks base st d hv)

/-- C7 amended: class identity is per (package, file-visit), not per
package: within one `parseProfile` call starting from a report with no
packages yet, the resulting package's class names are pairwise distinct
— every declaration of that file with receiver name T (or the sentinel
`"-"`) lands in the same Class named T. Across different files of the
same package the map is rebuilt, so equal receiver names yield separate
Class entries (see the counterexample). -/
theorem claimC7_per_file (cov cov1 : Coverage) (pr : ProfileInput)
    (h0 : cov.packages = []) (hok : parseProfile cov pr = Except.ok cov1) :
    ∀ pkg ∈ cov1.packages, (pkg.classes.map Class.name).Nodup := by
  unfold parseProfile at hok
  rw [h0] at hok
  rcases hpr : pr.parseRes with e | ds
  · rw [hpr] at hok
    simp at hok
  · rw [hpr] at hok
    simp only at hok
    rcases hrr : pr.readRes with e | u
    · rw [hrr] at hok
      simp at hok
    · rw [hrr] at hok
      simp only at hok
      have hfind : findPkgIdx ([] : List Package)
          (goDirPath (goTrimPre pr.fileName cov.packagePath)) = none := rfl
      rw [hfind] at hok
      simp only at hok
      injection hok with hok
      subst hok
      intro pkg hp
      simp only [List.nil_append] at hp
      have hp2 := List.mem_singleton.mp hp
      subst hp2
      have hnames := foldl_visit_names (goTrimPre pr.fileName cov.packagePath) pr.blocks
        [] ds ⟨[], []⟩ ⟨rfl, List.nodup_nil⟩
      show (((ds.foldl (visitDecl (goTrimPre pr.fileName cov.packagePath) pr.blocks)
        ⟨[], []⟩).classes).map Class.name).Nodup
      rw [hnames.1]
      simpa using hnames.2

def c7cov0 : Coverage := ⟨"", GoFloat.val 0, 0, 0, []⟩

def c7input : ProfileInput :=
  ⟨"d/a.go", [],
   Except.ok [⟨"f", none, 1, 1, 5, 2⟩, ⟨"g", none, 6, 1, 9, 2⟩], Except.ok ()⟩

def c7res : Coverage :=
  match parseProfile c7cov0 c7input with
  | Except.ok cov => cov
  | Except.error _ => c7cov0

theorem claimC7_per_file_witness :
    parseProfile c7cov0 c7input = Except.ok c7res ∧
    ((c7res.packages.headD ⟨"", GoFloat.val 0, []⟩).classes.map Class.name).Nodup :=
  have hok : parseProfile c7cov0 c7input = Except.ok c7res := rfl
  have hpk : c7res.packages = [c7res.packages.headD ⟨"", GoFloat.val 0, []⟩] := rfl
  ⟨hok, claimC7_per_file c7cov0 c7res c7input rfl hok _
    (by rw [hpk]; exact List.mem_singleton_self _)⟩

end Gobertura
